import Mathlib

/-!
Shallow embedding of `script.unqlocked/unqlocked/statemachine.py`:
the token-highlighting algorithm (`QlockThread.highlight`,
`QlockThread.highlightRow`), the per-tick retry policy (`QlockThread.step`),
the scheduler arithmetic and stop logic of `StateMachine`, and the delay
computation (`QlockThread.calcDelay`).

Python strings are modelled as `List Char`; a cell of the character grid is a
one-or-more-character string (`Cell`); the truth matrix is a list of boolean
rows, with Python's in-place assignment modelled by functional update.
-/

namespace Unqlocked

/-- A truth matrix: rows of boolean cells. -/
abbrev TruthMatrix := List (List Bool)

/-- The helper `createTruthMatrix(height, width)` of the `unqlocked` module:
an all-false matrix of the given dimensions. -/
def createTruthMatrix (height width : Nat) : TruthMatrix :=
  List.replicate height (List.replicate width false)

/-- Reading `truthMatrix[r][c]`; an out-of-range read yields `false` (the
program only reads in range). -/
def getCell (m : TruthMatrix) (r c : Nat) : Bool :=
  (m.getD r []).getD c false

/-- The assignment `truthMatrix[r][c] = b`, modelled with `List.set` (which
leaves the matrix unchanged out of range, a case the program never reaches). -/
def setCell (m : TruthMatrix) (r c : Nat) (b : Bool) : TruthMatrix :=
  m.set r ((m.getD r []).set c b)

/-- A cell of the character grid: a one-or-more-character string (such as the
cell "o'" of o'clock), as a char list. -/
abbrev Cell := List Char

/-- Python `''.join(cells)`. -/
def joinCells (cells : List Cell) : List Char := cells.flatten

/-- Python `s.startswith(t)`: `isPrefixTok t s = true` iff `t` is a prefix of
`s`. -/
def isPrefixTok : List Char → List Char → Bool
  | [], _ => true
  | _ :: _, [] => false
  | a :: t, b :: s => a == b && isPrefixTok t s

/-- The inner `while len(token):` loop of `QlockThread.highlightRow`: starting
at cell `i`, mark cells of row `row` true cell by cell, dropping each visited
cell's length from the front of the token, until the remaining token text is
empty. Returns the updated truth matrix and the number of cells visited (the
loop's final index is `i` plus that count). The final branch (index past the
end of the row with token text remaining) is unreachable under the
`startswith` guard of the caller, where Python would raise IndexError. -/
def markToken (charRow : List Cell) (row : Nat) (truth : TruthMatrix)
    (token : List Char) (i : Nat) : TruthMatrix × Nat :=
  match token with
  | [] => (truth, 0)
  | c :: rest =>
    if i < charRow.length then
      let r := markToken charRow row (setCell truth row i true)
        ((c :: rest).drop (charRow.getD i []).length) (i + 1)
      (r.1, r.2 + 1)
    else (truth, 0)
termination_by charRow.length - i
decreasing_by simp_wf; omega

/-- The `while i < len(charRow):` loop of `QlockThread.highlightRow`, with
scan index `i`: try to match the leading token at each position; on a match
mark its cells, advance past them (plus one extra cell when `forceSpace`),
and drop the token. Returns the updated truth matrix and the leftover
tokens. -/
def highlightRowAux (charRow : List Cell) (row : Nat) (truth : TruthMatrix)
    (tokens : List (List Char)) (forceSpace : Bool) (i : Nat) :
    TruthMatrix × List (List Char) :=
  match tokens with
  | [] => (truth, tokens)
  | token :: rest =>
    if i < charRow.length then
      if isPrefixTok token (joinCells (charRow.drop i)) then
        highlightRowAux charRow row (markToken charRow row truth token i).1
          rest forceSpace
          (if forceSpace then i + (markToken charRow row truth token i).2 + 1
           else i + (markToken charRow row truth token i).2)
      else
        highlightRowAux charRow row truth (token :: rest) forceSpace (i + 1)
    else (truth, tokens)
termination_by (charRow.length - i) + tokens.length
decreasing_by
  · simp_wf; split <;> omega
  · simp_wf; omega

/-- `QlockThread.highlightRow`: returns the updated truth matrix and the
number of tokens consumed (`len(tokensCopy) - len(tokens)`). -/
def highlightRow (charRow : List Cell) (row : Nat) (truth : TruthMatrix)
    (tokens : List (List Char)) (forceSpace : Bool) : TruthMatrix × Nat :=
  ((highlightRowAux charRow row truth tokens forceSpace 0).1,
    tokens.length -
      (highlightRowAux charRow row truth tokens forceSpace 0).2.length)

/-- The `for row in range(self.layout.height):` loop of
`QlockThread.highlight` (the layout's height is the number of grid rows):
run `highlightRow` on each row in order, slicing off the consumed tokens,
and stop early once no tokens remain. Returns the updated truth matrix and
the leftover tokens. -/
def highlightAux (charMatrix : List (List Cell)) (truth : TruthMatrix)
    (tokens : List (List Char)) (forceSpace : Bool) (row : Nat) :
    TruthMatrix × List (List Char) :=
  if row < charMatrix.length then
    match tokens with
    | [] => (truth, tokens)
    | token :: rest =>
      highlightAux charMatrix
        (highlightRow (charMatrix.getD row []) row truth (token :: rest)
          forceSpace).1
        ((token :: rest).drop
          (highlightRow (charMatrix.getD row []) row truth (token :: rest)
            forceSpace).2)
        forceSpace (row + 1)
  else (truth, tokens)
termination_by charMatrix.length - row
decreasing_by simp_wf; omega

/-- `QlockThread.highlight`: returns the updated truth matrix and
`len(tokens) == 0` (True iff every token was highlighted). -/
def highlight (charMatrix : List (List Cell)) (truth : TruthMatrix)
    (tokens : List (List Char)) (forceSpace : Bool) : TruthMatrix × Bool :=
  ((highlightAux charMatrix truth tokens forceSpace 0).1,
    (highlightAux charMatrix truth tokens forceSpace 0).2.length == 0)

/-- The truth matrices handed to `window.drawMatrix` during one
`QlockThread.step` tick, in order: a fresh all-false matrix is highlighted
with `forceSpace=True`; on failure a second fresh matrix is highlighted with
`forceSpace=False`; whichever matrix results is drawn (exactly one draw per
tick). The solver's solution and the layout dimensions are parameters. -/
def stepDrawn (height width : Nat) (charMatrix : List (List Cell))
    (solution : List (List Char)) : List TruthMatrix :=
  let first := highlight charMatrix (createTruthMatrix height width)
    solution true
  if first.2 then [first.1]
  else
    let second := highlight charMatrix (createTruthMatrix height width)
      solution false
    [second.1]

/-- Seconds in a day, `24 * 60 * 60`. -/
def daySeconds : Nat := 24 * 60 * 60

/-- Modelled from the spec: `Time.fromSeconds` of the `unqlocked` module (not
under src/), composed with `toSeconds` — a time-of-day value normalized
modulo 86400. -/
def timeFromSeconds (s : Nat) : Nat := s % daySeconds

/-- The line `next = (self.state.toSeconds() + self.delay) % (24 * 60 * 60)`
of `StateMachine.run`. -/
def nextTickSeconds (current delay : Nat) : Nat := (current + delay) % daySeconds

/-- The sleep computation of `StateMachine.run`: `delay = next - seconds;
if delay < 0: delay = delay + 24 * 60 * 60`, where `seconds` is the
fractional wall-clock seconds-of-day (modelled in ℚ). -/
def sleepDuration (next : Nat) (wallClock : ℚ) : ℚ :=
  let d : ℚ := (next : ℚ) - wallClock
  if d < 0 then d + (daySeconds : ℚ) else d

/-- The stop-related state of `StateMachine`: the `windowSighted` flag and the
`_stop` flag. -/
structure SMState where
  windowSighted : Bool
  stopFlag : Bool

/-- `StateMachine.shouldStop`, with the result of the visibility query as an
argument: returns the verdict and the updated state (the side effect of
recording a sighted window). -/
def shouldStop (st : SMState) (visible : Bool) : Bool × SMState :=
  if st.windowSighted && !visible then (true, st)
  else if visible then (st.stopFlag, { st with windowSighted := true })
  else (st.stopFlag, st)

/-- `StateMachine.stop`: sets the stop flag (the condition-variable notify is
outside the model). -/
def stop (st : SMState) : SMState := { st with stopFlag := true }

/-- Modelled from the spec: the `gcd` helper of the `unqlocked` module (not
under src/) — the greatest common divisor. -/
def gcdFn (a b : Nat) : Nat := Nat.gcd a b

/-- Python `reduce(f, xs)` with no initializer: `none` on the empty list,
where Python raises `TypeError: reduce() of empty sequence with no initial
value`. -/
def reduceFn (f : Nat → Nat → Nat) : List Nat → Option Nat
  | [] => none
  | x :: xs => some (xs.foldl f x)

/-- `QlockThread.calcDelay`:
`reduce(gcd, [time.toSeconds() for time in layout.times.keys()])`, over the
offsets (in seconds) of the configured phrase table. -/
def calcDelay (offsets : List Nat) : Option Nat := reduceFn gcdFn offsets

/-! Vocabulary for stating the highlighting claims: contiguous cell spans. -/

/-- A contiguous span of cells: a row index, a start cell and an end cell
(exclusive). -/
structure Span where
  row : Nat
  lo : Nat
  hi : Nat

/-- The concatenated text of a span's cells, within one row of cells. -/
def rowText (cells : List Cell) (s : Span) : List Char :=
  joinCells ((cells.drop s.lo).take (s.hi - s.lo))

/-- The concatenated text of a span's cells in the character grid. -/
def Span.text (charMatrix : List (List Cell)) (s : Span) : List Char :=
  rowText (charMatrix.getD s.row []) s

/-- The span is a genuine cell span of the grid: its row exists and its cells
lie within that row. -/
def Span.wf (charMatrix : List (List Cell)) (s : Span) : Prop :=
  s.row < charMatrix.length ∧ s.lo ≤ s.hi ∧
    s.hi ≤ (charMatrix.getD s.row []).length

/-- Row-major order on spans: the later span starts at or after the cell
where the earlier one ends. -/
def Span.before (s t : Span) : Prop :=
  s.row < t.row ∨ (s.row = t.row ∧ s.hi ≤ t.lo)

/-- The span covers position `(r, c)` of the grid. -/
def Span.covers (s : Span) (r c : Nat) : Prop :=
  s.row = r ∧ s.lo ≤ c ∧ c < s.hi

/-- The claim's span/token correspondence as the spec states it: an ordered
list of cell spans, one per token in sequence order, each span's concatenated
cell text EQUAL to its token, together covering every position marked true. -/
def spansExactlyTokens (charMatrix : List (List Cell))
    (tokens : List (List Char)) (result : TruthMatrix) : Prop :=
  ∃ spans : List Span,
    spans.length = tokens.length ∧
    (∀ s ∈ spans, s.wf charMatrix) ∧
    List.Chain' Span.before spans ∧
    (∀ k, k < spans.length →
      (spans.getD k ⟨0, 0, 0⟩).text charMatrix = tokens.getD k []) ∧
    ∀ r c, getCell result r c = true → ∃ s ∈ spans, s.covers r c

/-- A weaker reading of the same claim: every marked position is covered by
one of an ordered list of cell spans, each of whose concatenated cell text
equals SOME token of the sequence (no one-per-token correspondence). -/
def spansSomeTokens (charMatrix : List (List Cell))
    (tokens : List (List Char)) (result : TruthMatrix) : Prop :=
  ∃ spans : List Span,
    (∀ s ∈ spans, s.wf charMatrix) ∧
    List.Chain' Span.before spans ∧
    (∀ s ∈ spans, ∃ token ∈ tokens, s.text charMatrix = token) ∧
    ∀ r c, getCell result r c = true → ∃ s ∈ spans, s.covers r c

/-- The span is the minimal cell span at its position containing its token:
the token is a prefix of the span's concatenated cell text, and dropping the
span's last cell leaves fewer characters than the token (so the span may end
with a multi-character cell whose text extends past the token). -/
def rowSpanFits (cells : List Cell) (token : List Char) (s : Span) : Prop :=
  isPrefixTok token (rowText cells s) = true ∧
    (s.hi = s.lo ∨
      (joinCells ((cells.drop s.lo).take (s.hi - s.lo - 1))).length <
        token.length)

/-- `rowSpanFits` read off the grid at the span's own row. -/
def spanFitsToken (charMatrix : List (List Cell)) (token : List Char)
    (s : Span) : Prop :=
  rowSpanFits (charMatrix.getD s.row []) token s

/-- The amended span/token correspondence: as `spansExactlyTokens`, but each
span carries its token as a prefix of its text, minimally, instead of exactly
equalling it. -/
def spansCarryTokens (charMatrix : List (List Cell))
    (tokens : List (List Char)) (result : TruthMatrix) : Prop :=
  ∃ spans : List Span,
    spans.length = tokens.length ∧
    (∀ s ∈ spans, s.wf charMatrix) ∧
    List.Chain' Span.before spans ∧
    (∀ k, k < spans.length →
      spanFitsToken charMatrix (tokens.getD k []) (spans.getD k ⟨0, 0, 0⟩)) ∧
    ∀ r c, getCell result r c = true → ∃ s ∈ spans, s.covers r c

/-- Set cells `i ≤ c < j` of row `row` to true, one `setCell` at a time. -/
def setRange (t : TruthMatrix) (row i j : Nat) : TruthMatrix :=
  if i < j then setRange (setCell t row i true) row (i + 1) j else t
termination_by j - i

/-- Apply `setRange` for each span in turn. -/
def setRanges (t : TruthMatrix) (spans : List Span) : TruthMatrix :=
  spans.foldl (fun acc s => setRange acc s.row s.lo s.hi) t

/-- Spans produced within a single row `row` of length `len`, scanning from
lower bound `b`: each starts at or after the bound and the next bound is its
end. -/
def spansChained (row len : Nat) : Nat → List Span → Prop
  | _, [] => True
  | b, s :: rest =>
      s.row = row ∧ b ≤ s.lo ∧ s.lo ≤ s.hi ∧ s.hi ≤ len ∧
        spansChained row len s.hi rest

/-- Spans produced scanning the grid row-major from cursor `(r, c)`: each is
well formed, starts at or after the cursor, and moves the cursor to its
end. -/
def orderedFrom (cm : List (List Cell)) : Nat → Nat → List Span → Prop
  | _, _, [] => True
  | r, c, s :: rest =>
      s.row < cm.length ∧ s.lo ≤ s.hi ∧
        s.hi ≤ (cm.getD s.row []).length ∧
        (r < s.row ∨ (r = s.row ∧ c ≤ s.lo)) ∧
        orderedFrom cm s.row s.hi rest

/-! Theorems. General helpers first. -/

theorem joinCells_nil : joinCells [] = [] := rfl

theorem joinCells_cons (x : Cell) (l : List Cell) :
    joinCells (x :: l) = x ++ joinCells l := by
  simp [joinCells]

/-- Python's `startswith` of an empty needle is always true. -/
theorem prefixTok_nil (s : List Char) : isPrefixTok [] s = true := rfl

/-- A match of the needle against `a ++ b` still matches past `a` in `b`. -/
theorem prefixTok_append_drop (a : List Char) :
    ∀ t b, isPrefixTok t (a ++ b) = true →
      isPrefixTok (t.drop a.length) b = true := by
  induction a with
  | nil => intro t b h; simpa using h
  | cons x xs ih =>
    intro t b h
    cases t with
    | nil => simp [isPrefixTok]
    | cons y ys =>
      simp only [List.cons_append, isPrefixTok, Bool.and_eq_true,
        beq_iff_eq] at h
      simpa [List.length_cons] using ih ys b h.2

/-- Grafting: a needle matching `a ++ b` whose remainder past `a` matches `c`
matches `a ++ c` as well. -/
theorem prefixTok_graft (a : List Char) :
    ∀ t b c, isPrefixTok t (a ++ b) = true →
      isPrefixTok (t.drop a.length) c = true →
      isPrefixTok t (a ++ c) = true := by
  induction a with
  | nil => intro t b c _ h2; simpa using h2
  | cons x xs ih =>
    intro t b c h1 h2
    cases t with
    | nil => simp [isPrefixTok]
    | cons y ys =>
      simp only [List.cons_append, isPrefixTok, Bool.and_eq_true,
        beq_iff_eq] at h1 ⊢
      refine ⟨h1.1, ih ys b c h1.2 ?_⟩
      simpa [List.length_cons] using h2

/-- Splitting off the cell at an in-range index. -/
theorem drop_succ_getD {α : Type} (l : List α) (i : Nat) (d : α)
    (h : i < l.length) : l.drop i = l.getD i d :: l.drop (i + 1) := by
  rw [List.getD_eq_getElem l d h]
  exact List.drop_eq_getElem_cons h

/-- `List.set` seen through `getD`. -/
theorem getD_set_if {α : Type} (l : List α) :
    ∀ (n : Nat) (a : α) (k : Nat) (d : α),
      (l.set n a).getD k d = if n = k ∧ n < l.length then a else l.getD k d := by
  induction l with
  | nil => intro n a k d; simp
  | cons x xs ih =>
    intro n a k d
    cases n with
    | zero =>
      cases k with
      | zero => simp
      | succ k => simp
    | succ n =>
      cases k with
      | zero => simp
      | succ k =>
        simp only [List.set_cons_succ, List.getD_cons_succ, ih n a k d,
          List.length_cons]
        have hiff : (n = k ∧ n < xs.length) ↔
            (n + 1 = k + 1 ∧ n + 1 < xs.length + 1) := by omega
        rw [if_congr hiff rfl rfl]

/-- `List.replicate` seen through `getD`. -/
theorem getD_replicate_if {α : Type} (x d : α) :
    ∀ (n k : Nat), (List.replicate n x).getD k d = if k < n then x else d := by
  intro n
  induction n with
  | zero => intro k; simp
  | succ n ih =>
    intro k
    cases k with
    | zero => simp [List.replicate_succ]
    | succ k =>
      simp only [List.replicate_succ, List.getD_cons_succ, ih k]
      have hiff : (k < n) ↔ (k + 1 < n + 1) := by omega
      rw [if_congr hiff rfl rfl]

/-- A true cell after `setCell` was either just set or already true. -/
theorem getCell_setCell_true (t : TruthMatrix) (r c r₂ c₂ : Nat) (b : Bool)
    (h : getCell (setCell t r c b) r₂ c₂ = true) :
    (r₂ = r ∧ c₂ = c) ∨ getCell t r₂ c₂ = true := by
  unfold getCell setCell at h
  rw [getD_set_if] at h
  by_cases h1 : r = r₂ ∧ r < t.length
  · rw [if_pos h1] at h
    rw [getD_set_if] at h
    by_cases h2 : c = c₂ ∧ c < (t.getD r []).length
    · exact Or.inl ⟨h1.1.symm, h2.1.symm⟩
    · rw [if_neg h2] at h
      right
      unfold getCell
      rw [← h1.1]
      exact h
  · rw [if_neg h1] at h
    exact Or.inr h

/-- A true cell after `setRange` lies in the range or was already true. -/
theorem getCell_setRange (t : TruthMatrix) (row i j r c : Nat)
    (h : getCell (setRange t row i j) r c = true) :
    (r = row ∧ i ≤ c ∧ c < j) ∨ getCell t r c = true := by
  by_cases hij : i < j
  · rw [setRange, if_pos hij] at h
    rcases getCell_setRange (setCell t row i true) row (i + 1) j r c h with
      h' | h'
    · exact Or.inl ⟨h'.1, by omega, h'.2.2⟩
    · rcases getCell_setCell_true t row i r c true h' with ⟨hr, hc⟩ | h''
      · exact Or.inl ⟨hr, by omega, by omega⟩
      · exact Or.inr h''
  · rw [setRange, if_neg hij] at h
    exact Or.inr h
termination_by j - i

/-- A true cell after `setRanges` is covered by a span or was already true. -/
theorem getCell_setRanges (spans : List Span) :
    ∀ (t : TruthMatrix) (r c : Nat),
      getCell (setRanges t spans) r c = true →
      (∃ s ∈ spans, s.covers r c) ∨ getCell t r c = true := by
  induction spans with
  | nil => intro t r c h; exact Or.inr h
  | cons s rest ih =>
    intro t r c h
    have hf : setRanges t (s :: rest) =
        setRanges (setRange t s.row s.lo s.hi) rest := rfl
    rw [hf] at h
    rcases ih _ r c h with h' | h'
    · obtain ⟨u, hu, hc⟩ := h'
      exact Or.inl ⟨u, by simp [hu], hc⟩
    · rcases getCell_setRange _ s.row s.lo s.hi r c h' with h'' | h''
      · exact Or.inl ⟨s, by simp, h''.1.symm, h''.2⟩
      · exact Or.inr h''

/-- Every cell of a fresh truth matrix is false. -/
theorem getCell_createTruthMatrix (h w r c : Nat) :
    getCell (createTruthMatrix h w) r c = false := by
  unfold getCell createTruthMatrix
  rw [getD_replicate_if]
  split
  · rw [getD_replicate_if]
    split <;> rfl
  · rfl

/-- Characterization of the inner marking loop: under the `startswith` guard
it marks exactly the minimal run of `k` cells from `i` whose text carries the
token, and reports `k`. -/
theorem markToken_spec (charRow : List Cell) (row : Nat) (i : Nat)
    (truth : TruthMatrix) (token : List Char)
    (hp : isPrefixTok token (joinCells (charRow.drop i)) = true) :
    ∃ k, markToken charRow row truth token i =
        (setRange truth row i (i + k), k) ∧
      (k = 0 ∨ i + k ≤ charRow.length) ∧
      isPrefixTok token (joinCells ((charRow.drop i).take k)) = true ∧
      (k = 0 ∨
        (joinCells ((charRow.drop i).take (k - 1))).length < token.length) := by
  cases htok : token with
  | nil =>
    refine ⟨0, ?_, Or.inl rfl, rfl, Or.inl rfl⟩
    rw [markToken, setRange]
    simp
  | cons ch tl =>
    subst htok
    have hlt : i < charRow.length := by
      by_contra hge
      rw [List.drop_eq_nil_of_le (by omega)] at hp
      simp [joinCells, isPrefixTok] at hp
    have hdc : charRow.drop i = charRow.getD i [] :: charRow.drop (i + 1) :=
      drop_succ_getD charRow i [] hlt
    have hsplit : joinCells (charRow.drop i) =
        charRow.getD i [] ++ joinCells (charRow.drop (i + 1)) := by
      rw [hdc, joinCells_cons]
    have hp2 : isPrefixTok ((ch :: tl).drop (charRow.getD i []).length)
        (joinCells (charRow.drop (i + 1))) = true := by
      apply prefixTok_append_drop
      rw [← hsplit]
      exact hp
    obtain ⟨k, heq, hbound, hpre, hmin⟩ := markToken_spec charRow row (i + 1)
      (setCell truth row i true) ((ch :: tl).drop (charRow.getD i []).length)
      hp2
    refine ⟨k + 1, ?_, Or.inr ?_, ?_, Or.inr ?_⟩
    · rw [markToken, if_pos hlt]
      simp only [heq]
      have hrange : setRange truth row i (i + (k + 1)) =
          setRange (setCell truth row i true) row (i + 1) (i + 1 + k) := by
        rw [setRange, if_pos (by omega)]
        have he : i + (k + 1) = i + 1 + k := by omega
        rw [he]
      rw [hrange]
    · rcases hbound with h0 | hb
      · omega
      · omega
    · have htake : (charRow.drop i).take (k + 1) =
          charRow.getD i [] :: (charRow.drop (i + 1)).take k := by
        rw [hdc, List.take_succ_cons]
      rw [htake, joinCells_cons]
      exact prefixTok_graft (charRow.getD i []) (ch :: tl)
        (joinCells (charRow.drop (i + 1)))
        (joinCells ((charRow.drop (i + 1)).take k)) (by rw [← hsplit]; exact hp)
        hpre
    · cases k with
      | zero => simp [joinCells]
      | succ k' =>
        have htake : (charRow.drop i).take (k' + 1) =
            charRow.getD i [] :: (charRow.drop (i + 1)).take k' := by
          rw [hdc, List.take_succ_cons]
        have hmin' : (joinCells ((charRow.drop (i + 1)).take k')).length <
            ((ch :: tl).drop (charRow.getD i []).length).length := by
          rcases hmin with h0 | hm
          · omega
          · simpa using hm
        rw [List.length_drop] at hmin'
        have he : k' + 1 + 1 - 1 = k' + 1 := by omega
        rw [he, htake, joinCells_cons, List.length_append]
        omega
termination_by charRow.length - i

/-- Lowering the scan bound preserves `spansChained`. -/
theorem spansChained_mono (row len : Nat) (l : List Span) (b b' : Nat)
    (hbb : b ≤ b') (h : spansChained row len b' l) :
    spansChained row len b l := by
  cases l with
  | nil => trivial
  | cons s rest =>
    obtain ⟨h1, h2, h3, h4, h5⟩ := h
    exact ⟨h1, by omega, h3, h4, h5⟩

/-- All spans of a chained row list carry that row index. -/
theorem spansChained_row_eq (row len : Nat) (l : List Span) :
    ∀ b, spansChained row len b l → ∀ s ∈ l, s.row = row := by
  induction l with
  | nil => intro b _ s hs; simp at hs
  | cons u rest ih =>
    intro b h s hs
    obtain ⟨h1, _, _, _, h5⟩ := h
    rcases List.mem_cons.mp hs with rfl | hs
    · exact h1
    · exact ih u.hi h5 s hs

/-- Characterization of one row scan: it highlights an ordered chain of
minimal spans for a prefix of the token list, and returns the remaining
tokens. -/
theorem highlightRowAux_spans (charRow : List Cell) (row : Nat)
    (forceSpace : Bool) (i : Nat) (truth : TruthMatrix)
    (tokens : List (List Char)) :
    ∃ spans : List Span,
      highlightRowAux charRow row truth tokens forceSpace i =
        (setRanges truth spans, tokens.drop spans.length) ∧
      spans.length ≤ tokens.length ∧
      spansChained row charRow.length i spans ∧
      ∀ k, k < spans.length →
        rowSpanFits charRow (tokens.getD k []) (spans.getD k ⟨0, 0, 0⟩) := by
  cases tokens with
  | nil =>
    refine ⟨[], ?_, by simp, trivial, by intro k hk; simp at hk⟩
    rw [highlightRowAux]
    simp [setRanges]
  | cons token rest =>
    by_cases hlt : i < charRow.length
    · by_cases hm : isPrefixTok token (joinCells (charRow.drop i)) = true
      · obtain ⟨k, heq, hbound, hpre, hmin⟩ :=
          markToken_spec charRow row i truth token hm
        obtain ⟨spans', heq', hlen', hch', hfit'⟩ :=
          highlightRowAux_spans charRow row forceSpace
            (if forceSpace then i + k + 1 else i + k)
            (setRange truth row i (i + k)) rest
        refine ⟨⟨row, i, i + k⟩ :: spans', ?_, ?_, ?_, ?_⟩
        · rw [highlightRowAux, if_pos hlt, if_pos hm, heq]
          simp only [List.length_cons, List.drop_succ_cons]
          have hsr : setRanges truth (⟨row, i, i + k⟩ :: spans') =
              setRanges (setRange truth row i (i + k)) spans' := rfl
          rw [hsr, ← heq']
        · show (⟨row, i, i + k⟩ :: spans').length ≤ (token :: rest).length
          simp only [List.length_cons]
          omega
        · have hhi : i + k ≤ charRow.length := by
            rcases hbound with h0 | hb <;> omega
          exact ⟨rfl, Nat.le_refl i, Nat.le_add_right i k, hhi,
            spansChained_mono row charRow.length spans' (i + k)
              (if forceSpace then i + k + 1 else i + k)
              (by split <;> omega) hch'⟩
        · intro k' hk'
          cases k' with
          | zero =>
            simp only [List.getD_cons_zero]
            constructor
            · show isPrefixTok ((token :: rest).getD 0 [])
                (joinCells ((charRow.drop i).take (i + k - i))) = true
              have he : i + k - i = k := by omega
              rw [he]
              simpa using hpre
            · show i + k = i ∨
                (joinCells ((charRow.drop i).take (i + k - i - 1))).length <
                  ((token :: rest).getD 0 []).length
              rcases hmin with h0 | hm'
              · exact Or.inl (by omega)
              · refine Or.inr ?_
                have he : i + k - i - 1 = k - 1 := by omega
                rw [he]
                simpa using hm'
          | succ k'' =>
            simp only [List.getD_cons_succ]
            exact hfit' k'' (by simpa using hk')
      · obtain ⟨spans, heq, hlen, hch, hfit⟩ :=
          highlightRowAux_spans charRow row forceSpace (i + 1) truth
            (token :: rest)
        refine ⟨spans, ?_, hlen,
          spansChained_mono row charRow.length spans i (i + 1) (by omega) hch,
          hfit⟩
        rw [highlightRowAux, if_pos hlt, if_neg hm]
        exact heq
    · refine ⟨[], ?_, by simp, trivial, by intro k hk; simp at hk⟩
      rw [highlightRowAux, if_neg hlt]
      simp [setRanges]
termination_by (charRow.length - i) + tokens.length
decreasing_by
  · simp_wf; split <;> omega
  · simp_wf; omega

/-- Moving the cursor back preserves `orderedFrom`. -/
theorem orderedFrom_mono (cm : List (List Cell)) (l : List Span)
    (r c r' c' : Nat) (hcur : r < r' ∨ (r = r' ∧ c ≤ c'))
    (h : orderedFrom cm r' c' l) : orderedFrom cm r c l := by
  cases l with
  | nil => trivial
  | cons s rest =>
    obtain ⟨h1, h2, h3, h4, h5⟩ := h
    refine ⟨h1, h2, h3, ?_, h5⟩
    rcases h4 with h4 | ⟨he, hc⟩
    · rcases hcur with hr | ⟨hre, hcc⟩
      · exact Or.inl (by omega)
      · exact Or.inl (by omega)
    · rcases hcur with hr | ⟨hre, hcc⟩
      · exact Or.inl (by omega)
      · exact Or.inr ⟨by omega, by omega⟩

/-- A chain within an existing row is row-major ordered from its start. -/
theorem chained_orderedFrom (cm : List (List Cell)) (row : Nat)
    (hrow : row < cm.length) (l : List Span) :
    ∀ b, spansChained row (cm.getD row []).length b l →
      orderedFrom cm row b l := by
  induction l with
  | nil => intro b _; trivial
  | cons s rest ih =>
    intro b h
    obtain ⟨h1, h2, h3, h4, h5⟩ := h
    refine ⟨by rw [h1]; exact hrow, h3, by rw [h1]; exact h4,
      Or.inr ⟨h1.symm, h2⟩, ?_⟩
    rw [h1]
    exact ih s.hi h5

/-- A chain in row `row` followed by spans ordered from the next row is
ordered from row `row`. -/
theorem chained_append_ordered (cm : List (List Cell)) (row : Nat)
    (hrow : row < cm.length) (l₁ l₂ : List Span) :
    ∀ b, spansChained row (cm.getD row []).length b l₁ →
      orderedFrom cm (row + 1) 0 l₂ →
      orderedFrom cm row b (l₁ ++ l₂) := by
  induction l₁ with
  | nil =>
    intro b _ h₂
    simp only [List.nil_append]
    exact orderedFrom_mono cm l₂ row b (row + 1) 0 (Or.inl (by omega)) h₂
  | cons s rest ih =>
    intro b h₁ h₂
    obtain ⟨h1, h2, h3, h4, h5⟩ := h₁
    refine ⟨by rw [h1]; exact hrow, h3, by rw [h1]; exact h4,
      Or.inr ⟨h1.symm, h2⟩, ?_⟩
    rw [h1]
    exact ih s.hi h5 h₂

/-- Every span of an ordered list is well formed. -/
theorem orderedFrom_wf (cm : List (List Cell)) (l : List Span) :
    ∀ r c, orderedFrom cm r c l → ∀ s ∈ l, s.wf cm := by
  induction l with
  | nil => intro r c _ s hs; simp at hs
  | cons s rest ih =>
    intro r c h u hu
    obtain ⟨h1, h2, h3, _, h5⟩ := h
    rcases List.mem_cons.mp hu with rfl | hu
    · exact ⟨h1, h2, h3⟩
    · exact ih s.row s.hi h5 u hu

/-- An ordered span list is a row-major `Chain'`. -/
theorem orderedFrom_chain (cm : List (List Cell)) (l : List Span) :
    ∀ r c, orderedFrom cm r c l → List.Chain' Span.before l := by
  induction l with
  | nil => intro r c _; exact List.chain'_nil
  | cons s rest ih =>
    intro r c h
    obtain ⟨_, _, _, _, h5⟩ := h
    cases rest with
    | nil => simp
    | cons t rest2 =>
      obtain ⟨a1, a2, a3, h4', h5'⟩ := h5
      exact List.chain'_cons.mpr
        ⟨h4', ih s.row s.hi ⟨a1, a2, a3, h4', h5'⟩⟩

/-- `getD` through `drop`. -/
theorem getD_drop {α : Type} (l : List α) :
    ∀ (n m : Nat) (d : α), (l.drop n).getD m d = l.getD (n + m) d := by
  induction l with
  | nil => intro n m d; simp
  | cons x xs ih =>
    intro n m d
    cases n with
    | zero => simp
    | succ n =>
      simp only [List.drop_succ_cons]
      rw [ih n m d]
      have he : n + 1 + m = (n + m) + 1 := by omega
      rw [he, List.getD_cons_succ]

/-- An in-range `getD` is a member. -/
theorem getD_mem {α : Type} (l : List α) (k : Nat) (d : α)
    (h : k < l.length) : l.getD k d ∈ l := by
  rw [List.getD_eq_getElem l d h]
  exact List.getElem_mem h

/-- Characterization of the grid scan: it highlights a row-major ordered list
of minimal spans for a prefix of the token list, and returns the remaining
tokens. -/
theorem highlightAux_spans (charMatrix : List (List Cell)) (forceSpace : Bool)
    (row : Nat) (truth : TruthMatrix) (tokens : List (List Char)) :
    ∃ spans : List Span,
      highlightAux charMatrix truth tokens forceSpace row =
        (setRanges truth spans, tokens.drop spans.length) ∧
      spans.length ≤ tokens.length ∧
      orderedFrom charMatrix row 0 spans ∧
      ∀ k, k < spans.length →
        spanFitsToken charMatrix (tokens.getD k []) (spans.getD k ⟨0, 0, 0⟩) := by
  by_cases hrow : row < charMatrix.length
  · cases tokens with
    | nil =>
      refine ⟨[], ?_, by simp, trivial, by intro k hk; simp at hk⟩
      rw [highlightAux]
      simp [setRanges, hrow]
    | cons token rest =>
      obtain ⟨spans₁, heq₁, hlen₁, hch₁, hfit₁⟩ :=
        highlightRowAux_spans (charMatrix.getD row []) row forceSpace 0 truth
          (token :: rest)
      have hrowEq : highlightRow (charMatrix.getD row []) row truth
          (token :: rest) forceSpace = (setRanges truth spans₁, spans₁.length) := by
        unfold highlightRow
        rw [heq₁]
        simp only [List.length_drop]
        have he : (token :: rest).length -
            ((token :: rest).length - spans₁.length) = spans₁.length := by
          omega
        rw [he]
      obtain ⟨spans₂, heq₂, hlen₂, hord₂, hfit₂⟩ :=
        highlightAux_spans charMatrix forceSpace (row + 1)
          (setRanges truth spans₁) ((token :: rest).drop spans₁.length)
      refine ⟨spans₁ ++ spans₂, ?_, ?_, ?_, ?_⟩
      · rw [highlightAux, if_pos hrow, hrowEq]
        simp only
        rw [heq₂]
        have h1 : setRanges truth (spans₁ ++ spans₂) =
            setRanges (setRanges truth spans₁) spans₂ := by
          simp [setRanges]
        have h2 : (token :: rest).drop (spans₁ ++ spans₂).length =
            ((token :: rest).drop spans₁.length).drop spans₂.length := by
          rw [List.drop_drop]
          congr 1
          rw [List.length_append]
        rw [h1, h2]
      · have hd := List.length_drop spans₁.length (token :: rest)
        rw [hd] at hlen₂
        simp only [List.length_append]
        omega
      · exact chained_append_ordered charMatrix row hrow spans₁ spans₂ 0 hch₁
          hord₂
      · intro k hk
        by_cases hk1 : k < spans₁.length
        · rw [List.getD_append _ _ _ _ hk1]
          have hrowk : (spans₁.getD k ⟨0, 0, 0⟩).row = row :=
            spansChained_row_eq row (charMatrix.getD row []).length spans₁ 0
              hch₁ _ (getD_mem spans₁ k ⟨0, 0, 0⟩ hk1)
          unfold spanFitsToken
          rw [hrowk]
          exact hfit₁ k hk1
        · push_neg at hk1
          rw [List.getD_append_right _ _ _ _ hk1]
          have hkk : k - spans₁.length < spans₂.length := by
            rw [List.length_append] at hk
            omega
          have hfk := hfit₂ (k - spans₁.length) hkk
          rw [getD_drop] at hfk
          have he : spans₁.length + (k - spans₁.length) = k := by omega
          rw [he] at hfk
          exact hfk
  · refine ⟨[], ?_, by simp, trivial, by intro k hk; simp at hk⟩
    rw [highlightAux.eq_def]
    simp [setRanges, hrow]
termination_by charMatrix.length - row
decreasing_by simp_wf; omega

/-- Folding `Nat.gcd` from a seed divides the seed and every element. -/
theorem foldl_gcd_dvd (xs : List Nat) :
    ∀ x, (xs.foldl Nat.gcd x) ∣ x ∧ ∀ y ∈ xs, (xs.foldl Nat.gcd x) ∣ y := by
  induction xs with
  | nil => simp
  | cons y ys ih =>
    intro x
    simp only [List.foldl_cons]
    obtain ⟨h1, h2⟩ := ih (Nat.gcd x y)
    refine ⟨h1.trans (Nat.gcd_dvd_left x y), ?_⟩
    intro z hz
    rcases List.mem_cons.mp hz with rfl | hz
    · exact h1.trans (Nat.gcd_dvd_right x z)
    · exact h2 z hz

/-- Every common divisor of the seed and the elements divides the
`Nat.gcd` fold. -/
theorem dvd_foldl_gcd (xs : List Nat) :
    ∀ x c, c ∣ x → (∀ y ∈ xs, c ∣ y) → c ∣ xs.foldl Nat.gcd x := by
  induction xs with
  | nil =>
    intro x c hx _
    simpa using hx
  | cons y ys ih =>
    intro x c hx hall
    simp only [List.foldl_cons]
    exact ih _ c (Nat.dvd_gcd hx (hall y (by simp)))
      (fun z hz => hall z (by simp [hz]))

/-- C8: the tick delay computed by `calcDelay` is the greatest common divisor
of the configured time offsets: it divides every offset, every common divisor
of the offsets divides it, and on the offsets 300, 600, 900 it is 300. -/
theorem calcDelay_gcd :
    calcDelay [300, 600, 900] = some 300 ∧
    ∀ offsets d, calcDelay offsets = some d →
      (∀ x ∈ offsets, d ∣ x) ∧ ∀ c, (∀ x ∈ offsets, c ∣ x) → c ∣ d := by
  constructor
  · decide
  · intro offsets d h
    match offsets with
    | [] => simp [calcDelay, reduceFn] at h
    | x :: xs =>
      simp only [calcDelay, reduceFn, gcdFn, Option.some.injEq] at h
      subst h
      obtain ⟨h1, h2⟩ := foldl_gcd_dvd xs x
      refine ⟨?_, ?_⟩
      · intro z hz
        rcases List.mem_cons.mp hz with rfl | hz
        · exact h1
        · exact h2 z hz
      · intro c hc
        exact dvd_foldl_gcd xs x c (hc x (by simp))
          (fun z hz => hc z (by simp [hz]))

/-- C9: on an empty offset set the delay computation fails (Python's `reduce`
with no initializer raises `TypeError`, modelled as `none`), so construction
rejects the configuration rather than defaulting. -/
theorem calcDelay_empty_none : calcDelay [] = none := rfl

/-- C6: the next tick state is `(current + delay) % 86400` (already
normalized, so re-normalizing by `Time.fromSeconds` leaves it unchanged); the
sleep duration is the difference to the wall clock, plus 86400 when negative,
and is never negative for a wall clock inside one day; concretely
86300 + 300 wraps to 200 and from wall clock 86350 the sleep is 250 > 0. -/
theorem run_tick_arithmetic (current delay : Nat) (wallClock : ℚ)
    (_hdelay : 0 < delay) (_hw0 : 0 ≤ wallClock) (hw : wallClock < 86400) :
    timeFromSeconds (nextTickSeconds current delay) =
      nextTickSeconds current delay ∧
    0 ≤ sleepDuration (nextTickSeconds current delay) wallClock ∧
    nextTickSeconds 86300 300 = 200 ∧
    sleepDuration 200 86350 = 250 ∧ (0 : ℚ) < 250 := by
  refine ⟨?_, ?_, by decide, ?_, by norm_num⟩
  · simp only [timeFromSeconds, nextTickSeconds, daySeconds]
    omega
  · have hlt : nextTickSeconds current delay < 86400 := by
      simp only [nextTickSeconds, daySeconds]
      omega
    have hge : (0 : ℚ) ≤ (nextTickSeconds current delay : ℚ) := by positivity
    simp only [sleepDuration, daySeconds]
    split
    · push_cast
      linarith
    · linarith
  · simp only [sleepDuration, daySeconds]
    norm_num

/-- Witness for `run_tick_arithmetic` at current = 86300, delay = 300,
wall clock = 86350. -/
theorem run_tick_arithmetic_witness :
    timeFromSeconds (nextTickSeconds 86300 300) = nextTickSeconds 86300 300 ∧
    0 ≤ sleepDuration (nextTickSeconds 86300 300) 86350 ∧
    nextTickSeconds 86300 300 = 200 ∧
    sleepDuration 200 86350 = 250 ∧ (0 : ℚ) < 250 :=
  run_tick_arithmetic 86300 300 86350 (by norm_num) (by norm_num) (by norm_num)

/-- C7: `shouldStop` returns true whenever the window was previously sighted
and is now not visible (even with the stop flag unset); whenever the window
is visible the call records it as sighted; in every other case it returns the
stop flag; and neither `shouldStop` nor `stop` ever clears the sighted flag
or the stop flag once set. -/
theorem shouldStop_spec :
    ∀ (st : SMState) (visible : Bool),
      (st.windowSighted = true → visible = false →
        (shouldStop st visible).1 = true) ∧
      (visible = true → ((shouldStop st visible).2).windowSighted = true) ∧
      (¬(st.windowSighted = true ∧ visible = false) →
        (shouldStop st visible).1 = st.stopFlag) ∧
      (st.windowSighted = true →
        ((shouldStop st visible).2).windowSighted = true) ∧
      ((shouldStop st visible).2).stopFlag = st.stopFlag ∧
      (stop st).stopFlag = true ∧
      (stop st).windowSighted = st.windowSighted := by
  intro st visible
  rcases st with ⟨ws, sf⟩
  cases ws <;> cases sf <;> cases visible <;> simp [shouldStop, stop]

/-- C4: one tick draws exactly one matrix: the first (`forceSpace=True`)
highlight of a fresh all-false matrix when it succeeds, otherwise the result
of the single retry with `forceSpace=False` on another fresh matrix — drawn
whether or not that retry succeeds, with no further attempt. -/
theorem step_retry_policy :
    ∀ (height width : Nat) (charMatrix : List (List Cell))
      (solution : List (List Char)),
      (stepDrawn height width charMatrix solution).length = 1 ∧
      ((highlight charMatrix (createTruthMatrix height width) solution
          true).2 = true →
        stepDrawn height width charMatrix solution =
          [(highlight charMatrix (createTruthMatrix height width) solution
              true).1]) ∧
      ((highlight charMatrix (createTruthMatrix height width) solution
          true).2 = false →
        stepDrawn height width charMatrix solution =
          [(highlight charMatrix (createTruthMatrix height width) solution
              false).1]) := by
  intro height width charMatrix solution
  unfold stepDrawn
  cases hb : (highlight charMatrix (createTruthMatrix height width) solution
      true).2 <;> simp [hb]

/-- C2: on the row "a h a l f" with tokens "a", "half" and
`forceSpace=True`, only the first cell is marked and one token is consumed,
so the overall highlight fails; and in general, with `forceSpace=True`, after
a match the scan resumes one cell past the matched span. -/
theorem highlightRow_forceSpace_adjacency :
    highlightRow [['a'], ['h'], ['a'], ['l'], ['f']] 0 (createTruthMatrix 1 5)
        [['a'], ['h', 'a', 'l', 'f']] true =
      ([[true, false, false, false, false]], 1) ∧
    (highlight [[['a'], ['h'], ['a'], ['l'], ['f']]] (createTruthMatrix 1 5)
        [['a'], ['h', 'a', 'l', 'f']] true).2 = false ∧
    ∀ (charRow : List Cell) (row : Nat) (truth : TruthMatrix)
      (token : List Char) (rest : List (List Char)) (i : Nat),
      i < charRow.length →
      isPrefixTok token (joinCells (charRow.drop i)) = true →
      highlightRowAux charRow row truth (token :: rest) true i =
        highlightRowAux charRow row (markToken charRow row truth token i).1
          rest true (i + (markToken charRow row truth token i).2 + 1) := by
  refine ⟨?_, ?_, ?_⟩
  · simp [highlightRow, highlightRowAux, markToken, isPrefixTok, joinCells,
      setCell, getCell, createTruthMatrix]
  · simp [highlight, highlightAux, highlightRow, highlightRowAux, markToken,
      isPrefixTok, joinCells, setCell, getCell, createTruthMatrix]
  · intro charRow row truth token rest i hi hm
    conv_lhs => rw [highlightRowAux]
    simp [hi, hm]

/-- C3: on the row "a h a l f" with tokens "a", "half" and
`forceSpace=False`, both tokens are consumed and all five cells end up
marked ("a" at cell 0 and "half" at cells 1..4, adjacent with no gap). -/
theorem highlightRow_noForceSpace_adjacent :
    highlightRow [['a'], ['h'], ['a'], ['l'], ['f']] 0 (createTruthMatrix 1 5)
        [['a'], ['h', 'a', 'l', 'f']] false =
      ([[true, true, true, true, true]], 2) := by
  simp [highlightRow, highlightRowAux, markToken, isPrefixTok, joinCells,
    setCell, getCell, createTruthMatrix]

/-- A row scan whose leading token matches at no start position of the row
consumes nothing and leaves the truth matrix untouched. -/
theorem highlightRowAux_no_match (charRow : List Cell) (row : Nat)
    (forceSpace : Bool) (token : List Char) (rest : List (List Char))
    (i : Nat) (truth : TruthMatrix)
    (hno : ∀ n, isPrefixTok token (joinCells (charRow.drop n)) = false) :
    highlightRowAux charRow row truth (token :: rest) forceSpace i =
      (truth, token :: rest) := by
  by_cases hlt : i < charRow.length
  · rw [highlightRowAux, if_pos hlt, if_neg (by simp [hno i])]
    exact highlightRowAux_no_match charRow row forceSpace token rest (i + 1)
      truth hno
  · rw [highlightRowAux, if_neg hlt]
termination_by charRow.length - i

/-- C1 (amended): when `highlight` of a fresh truth matrix succeeds, there is
one cell span per token, in row-major order, each carrying its token as a
prefix of its concatenated cell text (minimally: dropping the span's last
cell leaves fewer characters than the token), and every position marked true
is covered by one of these spans. -/
theorem highlight_success_spans (charMatrix : List (List Cell))
    (tokens : List (List Char)) (forceSpace : Bool) (height width : Nat)
    (hs : (highlight charMatrix (createTruthMatrix height width) tokens
      forceSpace).2 = true) :
    spansCarryTokens charMatrix tokens
      (highlight charMatrix (createTruthMatrix height width) tokens
        forceSpace).1 := by
  obtain ⟨spans, heq, hlen, hord, hfit⟩ :=
    highlightAux_spans charMatrix forceSpace 0 (createTruthMatrix height width)
      tokens
  unfold highlight at hs
  rw [heq] at hs
  have hlzero : (tokens.drop spans.length).length = 0 := by simpa using hs
  rw [List.length_drop] at hlzero
  have hleneq : spans.length = tokens.length := by omega
  unfold highlight
  rw [heq]
  refine ⟨spans, hleneq, orderedFrom_wf charMatrix spans 0 0 hord,
    orderedFrom_chain charMatrix spans 0 0 hord, hfit, ?_⟩
  intro r c hc
  rcases getCell_setRanges spans _ r c hc with h' | h'
  · exact h'
  · rw [getCell_createTruthMatrix] at h'
    exact absurd h' (by simp)

/-- Witness for `highlight_success_spans` on the one-cell grid "a" with the
single token "a". -/
theorem highlight_success_spans_witness :
    spansCarryTokens [[['a']]] [['a']]
      (highlight [[['a']]] (createTruthMatrix 1 1) [['a']] true).1 :=
  highlight_success_spans [[['a']]] [['a']] true 1 1 (by
    simp [highlight, highlightAux, highlightRow, highlightRowAux, markToken,
      isPrefixTok, joinCells, setCell, getCell, createTruthMatrix])

/-- Counterexample to C1 as stated: on the grid whose single cell is the
two-character string "ab", the single token "a" highlights successfully, but
the only cell span covering the marked position has concatenated text "ab",
which equals no token of the sequence. -/
theorem highlight_spans_cex :
    (highlight [[['a', 'b']]] (createTruthMatrix 1 1) [['a']] true).2 = true ∧
    ¬ spansExactlyTokens [[['a', 'b']]] [['a']]
        (highlight [[['a', 'b']]] (createTruthMatrix 1 1) [['a']] true).1 ∧
    ¬ spansSomeTokens [[['a', 'b']]] [['a']]
        (highlight [[['a', 'b']]] (createTruthMatrix 1 1) [['a']] true).1 := by
  have heval : highlight [[['a', 'b']]] (createTruthMatrix 1 1) [['a']] true =
      ([[true]], true) := by
    simp [highlight, highlightAux, highlightRow, highlightRowAux, markToken,
      isPrefixTok, joinCells, setCell, getCell, createTruthMatrix]
  rw [heval]
  refine ⟨rfl, ?_, ?_⟩
  · rintro ⟨spans, hlen, hwf, hchain, htext, hcover⟩
    simp only [List.length_cons, List.length_nil] at hlen
    obtain ⟨s, hs⟩ := List.length_eq_one.mp hlen
    subst hs
    have hm : getCell [[true]] 0 0 = true := rfl
    obtain ⟨t, ht, hcov⟩ := hcover 0 0 hm
    rw [List.mem_singleton] at ht
    subst ht
    obtain ⟨r, lo, hi⟩ := t
    obtain ⟨hrow, hlo, hhi⟩ := hcov
    simp only at hrow hlo hhi
    subst hrow
    obtain ⟨hr1, hlh, hhi1⟩ := hwf ⟨0, lo, hi⟩ (List.mem_singleton.mpr rfl)
    simp only [Span.wf] at hhi1
    have hlo0 : lo = 0 := by omega
    have hhieq : hi = 1 := by
      simp only [List.getD_cons_zero, List.length_cons, List.length_nil]
        at hhi1
      omega
    subst hlo0
    subst hhieq
    have htxt := htext 0 (by simp)
    simp [Span.text, rowText, joinCells] at htxt
  · rintro ⟨spans, hwf, hchain, htext, hcover⟩
    have hm : getCell [[true]] 0 0 = true := rfl
    obtain ⟨t, ht, hcov⟩ := hcover 0 0 hm
    obtain ⟨tok, htok, htxt⟩ := htext t ht
    rw [List.mem_singleton] at htok
    subst htok
    obtain ⟨hr1, hlh, hhi1⟩ := hwf t ht
    obtain ⟨r, lo, hi⟩ := t
    obtain ⟨hrow, hlo, hhi⟩ := hcov
    simp only at hrow hlo hhi
    subst hrow
    simp only [Span.wf] at hhi1
    have hlo0 : lo = 0 := by omega
    have hhieq : hi = 1 := by
      simp only [List.getD_cons_zero, List.length_cons, List.length_nil]
        at hhi1
      omega
    subst hlo0
    subst hhieq
    simp [Span.text, rowText, joinCells] at htxt

/-- C5: rows are scanned top to bottom; the scan stops as soon as the token
list is empty; each row consumes a prefix of the remaining tokens via
`highlightRow` and the unconsumed tokens carry forward unchanged to the next
row; and a token that matches nowhere within a row's remaining cells produces
no match in that row (tokens never span a row boundary). -/
theorem highlight_row_iteration :
    ∀ (charMatrix : List (List Cell)) (truth : TruthMatrix)
      (forceSpace : Bool) (row : Nat),
      highlightAux charMatrix truth [] forceSpace row = (truth, []) ∧
      (∀ (token : List Char) (rest : List (List Char)),
        row < charMatrix.length →
        highlightAux charMatrix truth (token :: rest) forceSpace row =
          highlightAux charMatrix
            (highlightRow (charMatrix.getD row []) row truth (token :: rest)
              forceSpace).1
            ((token :: rest).drop
              (highlightRow (charMatrix.getD row []) row truth (token :: rest)
                forceSpace).2)
            forceSpace (row + 1)) ∧
      (∀ (charRow : List Cell) (token : List Char) (rest : List (List Char))
        (i : Nat),
        (∀ n, isPrefixTok token (joinCells (charRow.drop n)) = false) →
        highlightRowAux charRow row truth (token :: rest) forceSpace i =
          (truth, token :: rest)) := by
  intro charMatrix truth forceSpace row
  refine ⟨?_, ?_, ?_⟩
  · rw [highlightAux.eq_def]
    split <;> rfl
  · intro token rest hrow
    rw [highlightAux, if_pos hrow]
  · intro charRow token rest i hno
    exact highlightRowAux_no_match charRow row forceSpace token rest i truth
      hno

/-- C10: the token list is never consumed destructively: a row scan and the
grid scan return a suffix (a slice) of the very token list they were given,
leaving the caller's list intact, so the failed first attempt's token list is
reused unchanged by the retry in `step`. -/
theorem tokens_not_mutated :
    ∀ (charMatrix : List (List Cell)) (charRow : List Cell) (row : Nat)
      (truth : TruthMatrix) (tokens : List (List Char)) (forceSpace : Bool)
      (i height width : Nat) (solution : List (List Char)),
      (∃ k, k ≤ tokens.length ∧
        (highlightRowAux charRow row truth tokens forceSpace i).2 =
          tokens.drop k) ∧
      (∃ k, k ≤ tokens.length ∧
        (highlightAux charMatrix truth tokens forceSpace row).2 =
          tokens.drop k) ∧
      ((highlight charMatrix (createTruthMatrix height width) solution
          true).2 = false →
        stepDrawn height width charMatrix solution =
          [(highlight charMatrix (createTruthMatrix height width) solution
              false).1]) := by
  intro charMatrix charRow row truth tokens forceSpace i height width solution
  refine ⟨?_, ?_, ?_⟩
  · obtain ⟨spans, heq, hlen, _, _⟩ :=
      highlightRowAux_spans charRow row forceSpace i truth tokens
    exact ⟨spans.length, hlen, by rw [heq]⟩
  · obtain ⟨spans, heq, hlen, _, _⟩ :=
      highlightAux_spans charMatrix forceSpace row truth tokens
    exact ⟨spans.length, hlen, by rw [heq]⟩
  · intro hf
    unfold stepDrawn
    simp [hf]

end Unqlocked
